/-
Verification of the signal-processing core of the 2-channel wave-analysis
pipeline (`signal_processing_class.py`).

Modelling conventions:
* Python floats are modelled by exact arithmetic.  A numeric value is a
  fraction `Q` (an integer numerator and a positive integer denominator,
  not necessarily reduced); an IEEE value is `FVal`, which is either a
  finite fraction, `nan`, `inf` or `ninf`.  Comparisons mirror IEEE
  semantics: every comparison with `nan` is false.  `Q.toRat` maps a
  fraction to the rational number it denotes; two `FVal`s denote the same
  value when `FVal.sameVal` holds (`feq` is the IEEE `==` test).
* `numpy.std(s) ** 2` is the population variance of `s`, an exact rational;
  it is modelled directly as `variance`.  The cross-correlation divisor
  `N * s1.std() * s2.std()` equals `N * sqrt(variance s1 * variance s2)`;
  it is rational exactly when that square root is (`ratSqrt`), which holds
  in every case exercised here (the model reports `Py.nonRational`
  otherwise, a modelling artifact, not a program outcome).
* A raised numpy `ValueError` (e.g. `np.argmin` or `np.min` of an empty
  array) is modelled by `Py.valueError`.
* `scipy.signal.find_peaks`, `peak_prominences` and `peak_widths` are
  modelled after their reference algorithms: strict local maxima with
  plateau midpoints, base scans for prominences, and interpolated
  half-prominence crossings for widths.
* `scipy.signal.savgol_filter(s, window_length = 11, polyorder = 2)`
  (default mode) evaluates, at every output position, the least-squares
  quadratic fitted to the window of 11 samples (the centred window in the
  interior, the first/last 11 samples near the edges) at the position of
  the output sample; `fitQuad11` solves the normal equations by Cramer,
  with the power sums over positions 0..10 precomputed.
-/
import Mathlib

set_option maxHeartbeats 2000000
set_option maxRecDepth 10000

/-- An exact fraction: integer numerator over an (invariantly positive)
integer denominator.  Not necessarily in lowest terms. -/
structure Q where
  num : ℤ
  den : ℤ
deriving DecidableEq

/-- The rational number denoted by a fraction. -/
def Q.toRat (a : Q) : ℚ := (a.num : ℚ) / (a.den : ℚ)

/-- The fraction denoting the integer `n`. -/
def qi (n : ℤ) : Q := ⟨n, 1⟩

def qadd (a b : Q) : Q := ⟨a.num * b.den + b.num * a.den, a.den * b.den⟩

def qneg (a : Q) : Q := ⟨-a.num, a.den⟩

def qsub (a b : Q) : Q := qadd a (qneg b)

def qmul (a b : Q) : Q := ⟨a.num * b.num, a.den * b.den⟩

/-- Division of fractions, keeping the denominator positive.  Only used with
a divisor whose numerator is nonzero (callers test for zero first, mirroring
the float division-by-zero cases separately). -/
def qdiv (a b : Q) : Q :=
  if b.num < 0 then ⟨-(a.num * b.den), a.den * -b.num⟩ else ⟨a.num * b.den, a.den * b.num⟩

/-- Comparison `a < b` as rationals (valid for positive denominators). -/
def qlt (a b : Q) : Bool := a.num * b.den < b.num * a.den

/-- Equality `a == b` as rationals (valid for positive denominators). -/
def qeqb (a b : Q) : Bool := a.num * b.den = b.num * a.den

def qsum (l : List Q) : Q := l.foldr qadd (qi 0)

def qmean (l : List Q) : Q := qdiv (qsum l) (qi l.length)

/-- Mean-centred copy of a series (`s - s.mean()`). -/
def center (l : List Q) : List Q := l.map (fun x => qsub x (qmean l))

/-- Population variance: the exact value of `numpy.std(s) ** 2`. -/
def variance (l : List Q) : Q := qmean ((center l).map (fun x => qmul x x))

/-- Series value at a signed index, zero outside the bounds (the implicit
zero-extension used by `numpy.correlate`). -/
def getZ (v : List Q) (i : ℤ) : Q :=
  if 0 ≤ i ∧ i < (v.length : ℤ) then v.getD i.toNat (qi 0) else qi 0

/-- Entry `k` of `numpy.correlate(a, v, mode = 'full')` (for equal-length
inputs): `c[k] = Σ_n a[n] * v[n + len v - 1 - k]`. -/
def corrEntry (a v : List Q) (k : ℕ) : Q :=
  qsum ((List.range a.length).map (fun (n : ℕ) => qmul (getZ a (n : ℤ)) (getZ v ((n : ℤ) + v.length - 1 - k))))

/-- Full-mode `numpy.correlate(a, v)`: `len a + len v - 1` entries. -/
def correlateFull (a v : List Q) : List Q :=
  (List.range (a.length + v.length - 1)).map (corrEntry a v)

/-- An IEEE double: a finite fraction, or one of the special values. -/
inductive FVal where
  | nan : FVal
  | inf : FVal
  | ninf : FVal
  | fin : Q → FVal
deriving DecidableEq

open FVal

/-- IEEE `<`: false whenever either side is `nan`. -/
def flt : FVal → FVal → Bool
  | fin a, fin b => qlt a b
  | fin _, inf => true
  | ninf, fin _ => true
  | ninf, inf => true
  | _, _ => false

/-- IEEE `==`: false whenever either side is `nan`. -/
def feq : FVal → FVal → Bool
  | fin a, fin b => qeqb a b
  | inf, inf => true
  | ninf, ninf => true
  | _, _ => false

/-- IEEE `<=`. -/
def fle (a b : FVal) : Bool := flt a b || feq a b

def fneg : FVal → FVal
  | nan => nan
  | inf => ninf
  | ninf => inf
  | fin a => fin (qneg a)

def fadd : FVal → FVal → FVal
  | nan, _ => nan
  | _, nan => nan
  | inf, ninf => nan
  | ninf, inf => nan
  | inf, _ => inf
  | _, inf => inf
  | ninf, _ => ninf
  | _, ninf => ninf
  | fin a, fin b => fin (qadd a b)

def fsub (a b : FVal) : FVal := fadd a (fneg b)

def fmul : FVal → FVal → FVal
  | nan, _ => nan
  | _, nan => nan
  | inf, inf => inf
  | inf, ninf => ninf
  | ninf, inf => ninf
  | ninf, ninf => inf
  | inf, fin b => if b.num = 0 then nan else if 0 < b.num then inf else ninf
  | fin a, inf => if a.num = 0 then nan else if 0 < a.num then inf else ninf
  | ninf, fin b => if b.num = 0 then nan else if 0 < b.num then ninf else inf
  | fin a, ninf => if a.num = 0 then nan else if 0 < a.num then ninf else inf
  | fin a, fin b => fin (qmul a b)

def fdiv : FVal → FVal → FVal
  | nan, _ => nan
  | _, nan => nan
  | inf, inf => nan
  | inf, ninf => nan
  | ninf, inf => nan
  | ninf, ninf => nan
  | inf, fin b => if b.num < 0 then ninf else inf
  | ninf, fin b => if b.num < 0 then inf else ninf
  | fin _, inf => fin (qi 0)
  | fin _, ninf => fin (qi 0)
  | fin a, fin b =>
      if b.num = 0 then (if a.num = 0 then nan else if 0 < a.num then inf else ninf)
      else fin (qdiv a b)

/-- IEEE `max` of two values (as used on finite data). -/
def fmax (a b : FVal) : FVal := if flt a b then b else a

def fsum (l : List FVal) : FVal := l.foldr fadd (fin (qi 0))

/-- Model of `numpy.mean` of a 1-D array: sum over count (`nan` for an empty array,
via `0/0`). -/
def fmean (l : List FVal) : FVal := fdiv (fsum l) (fin (qi l.length))

/-- Division of a fraction by a fraction with the float zero-divisor cases:
`0/0 = nan`, `x/0 = ±inf`. -/
def fdivQ (a b : Q) : FVal :=
  if b.num = 0 then (if a.num = 0 then nan else if 0 < a.num then inf else ninf)
  else fin (qdiv a b)

/-- Two IEEE values denoting the same extended-real point (unlike `feq`,
`nan` matches `nan`; finite values are compared as rationals). -/
def FVal.sameVal : FVal → FVal → Prop
  | fin a, fin b => a.toRat = b.toRat
  | a, b => a = b

/-- Newton iteration for the integer square root, descending from `x`;
stops at the first iterate whose square does not exceed `n`. -/
def isqrtAux (n : ℕ) : ℕ → ℕ → ℕ
  | 0, x => x
  | fuel + 1, x => if x * x ≤ n then x else isqrtAux n fuel ((x + n / x) / 2)

/-- Integer square root (floor), by Newton iteration from `n` itself; the
fuel bound 2000 covers every integer below `2 ^ 3000`. -/
def isqrtN (n : ℕ) : ℕ := isqrtAux n 2000 n

/-- The exact rational square root of a nonnegative fraction, when it exists:
`sqrt (n / d) = sqrt (n * d) / d`. -/
def ratSqrt (a : Q) : Option Q :=
  if a.num < 0 then none
  else
    let nd := (a.num * a.den).toNat
    let r := isqrtN nd
    if r * r = nd then some ⟨(r : ℤ), a.den⟩ else none

/-- Outcome of a modelled Python computation: a value, a raised
`ValueError`, or (a modelling artifact only) a float square root that is
not rational. -/
inductive Py (α : Type) where
  | ok : α → Py α
  | valueError : Py α
  | nonRational : Py α
deriving DecidableEq

/-- scipy `_local_maxima_1d` plateau scan: first index `j ≥` start with
`j = iMax` or `x[j] != v`. -/
def plateauEndAux (x : List FVal) (v : FVal) (iMax : ℕ) : ℕ → ℕ → ℕ
  | 0, j => j
  | fuel + 1, j =>
      if j < iMax ∧ feq (x.getD j nan) v then plateauEndAux x v iMax fuel (j + 1) else j

/-- scipy `_local_maxima_1d` main loop, from index `i`; emits the midpoint of
every maximal plateau that is a strict local maximum. -/
def lmAux (x : List FVal) (iMax : ℕ) : ℕ → ℕ → List ℕ
  | 0, _ => []
  | fuel + 1, i =>
      if i < iMax then
        if flt (x.getD (i - 1) nan) (x.getD i nan) then
          let ia := plateauEndAux x (x.getD i nan) iMax x.length (i + 1)
          if flt (x.getD ia nan) (x.getD i nan) then
            ((i + (ia - 1)) / 2) :: lmAux x iMax fuel (ia + 1)
          else lmAux x iMax fuel (i + 1)
        else lmAux x iMax fuel (i + 1)
      else []

/-- All local maxima of a 1-D signal (`scipy.signal.find_peaks` with no
filtering conditions). -/
def localMaxima (x : List FVal) : List ℕ := lmAux x (x.length - 1) x.length 1

/-- scipy `_peak_prominences` left scan from index `i` down to 0, stopping at
a sample above the peak height; returns the running minimum and its index. -/
def promLeftAux (x : List FVal) (hpk : FVal) : ℕ → FVal → ℕ → FVal × ℕ
  | 0, m, b =>
      if fle (x.getD 0 nan) hpk then
        (if flt (x.getD 0 nan) m then (x.getD 0 nan, 0) else (m, b))
      else (m, b)
  | i + 1, m, b =>
      if fle (x.getD (i + 1) nan) hpk then
        promLeftAux x hpk i (if flt (x.getD (i + 1) nan) m then x.getD (i + 1) nan else m)
          (if flt (x.getD (i + 1) nan) m then i + 1 else b)
      else (m, b)

/-- scipy `_peak_prominences` right scan from index `i` up to the last index. -/
def promRightAux (x : List FVal) (hpk : FVal) : ℕ → ℕ → FVal → ℕ → FVal × ℕ
  | 0, _, m, b => (m, b)
  | fuel + 1, i, m, b =>
      if i < x.length ∧ fle (x.getD i nan) hpk then
        promRightAux x hpk fuel (i + 1) (if flt (x.getD i nan) m then x.getD i nan else m)
          (if flt (x.getD i nan) m then i else b)
      else (m, b)

/-- Model of `scipy.signal.peak_prominences` for one peak: the prominence and the two
base indices. -/
def promBases (x : List FVal) (p : ℕ) : FVal × ℕ × ℕ :=
  let hpk := x.getD p nan
  let lres := promLeftAux x hpk p hpk p
  let rres := promRightAux x hpk x.length p hpk p
  (fsub hpk (fmax lres.1 rres.1), lres.2, rres.2)

def promOf (x : List FVal) (p : ℕ) : FVal := (promBases x p).1

/-- Model of `scipy.signal.find_peaks(x, prominence = thr)`: local maxima whose
prominence reaches the threshold. -/
def findPeaksProm (x : List FVal) (thr : FVal) : List ℕ :=
  (localMaxima x).filter (fun p => fle thr (promOf x p))

/-- scipy `_peak_widths` left scan: last index `i ≥` the left base with
`x[i] <= height` (walking down from the peak). -/
def wLeftAux (x : List FVal) (h : FVal) (lb : ℕ) : ℕ → ℕ
  | 0 => 0
  | i + 1 => if lb < i + 1 ∧ flt h (x.getD (i + 1) nan) then wLeftAux x h lb i else i + 1

/-- scipy `_peak_widths` right scan. -/
def wRightAux (x : List FVal) (h : FVal) (rb : ℕ) : ℕ → ℕ → ℕ
  | 0, i => i
  | fuel + 1, i => if i < rb ∧ flt h (x.getD i nan) then wRightAux x h rb fuel (i + 1) else i

/-- Model of `scipy.signal.peak_widths(x, [p], rel_height = 0.5)` for one peak:
interpolated crossing positions of the half-prominence height, right minus
left. -/
def peakWidth (x : List FVal) (p : ℕ) : FVal :=
  let pb := promBases x p
  let h := fsub (x.getD p nan) (fmul pb.1 (fin ⟨1, 2⟩))
  let li := wLeftAux x h pb.2.1 p
  let lip :=
    if flt (x.getD li nan) h then
      fadd (fin (qi li)) (fdiv (fsub h (x.getD li nan)) (fsub (x.getD (li + 1) nan) (x.getD li nan)))
    else fin (qi li)
  let ri := wRightAux x h pb.2.2 x.length p
  let rip :=
    if flt (x.getD ri nan) h then
      fsub (fin (qi ri)) (fdiv (fsub h (x.getD ri nan)) (fsub (x.getD (ri - 1) nan) (x.getD ri nan)))
    else fin (qi ri)
  fsub rip lip

/-- Model of `numpy.argmin` over a list of naturals: index of the first minimum;
raises (`none`) on an empty input. -/
def argminAux : List ℕ → ℕ → ℕ → ℕ → ℕ
  | [], _, bi, _ => bi
  | b :: l, bv, bi, ci => if b < bv then argminAux l b ci (ci + 1) else argminAux l bv bi (ci + 1)

def npArgmin : List ℕ → Option ℕ
  | [] => none
  | a :: l => some (argminAux l a 0 1)

/-- Model of `numpy.min` over a list of naturals; raises (`none`) on an empty input. -/
def npMinNat : List ℕ → Option ℕ
  | [] => none
  | a :: l => some (l.foldr min a)

/-- The normalized autocorrelation curve of one series
(`signal_processing_class.py` lines 77-79 and 100-102): full correlation of
the centred series with itself, divided by `nrm * std(signal)**2`. -/
def acfCurveNorm (nrm : ℕ) (signal : List Q) : List FVal :=
  (correlateFull (center signal) (center signal)).map
    (fun c => fdivQ c (qmul (qi nrm) (variance signal)))

/-- One (channel, box) iteration of `calc_ACF` in non-rolling mode
(lines 76-91): peaks of the normalized curve with the caller prominence
threshold; with at least two peaks the delay is the smallest nonzero
distance to the curve centre, otherwise the delay is `nan` and the stored
curve becomes `num_frames*2-1` copies of `nan`. -/
def acfStdBox (numFrames : ℕ) (peakThresh : Q) (signal : List Q) : Py (FVal × List FVal) :=
  let curve := acfCurveNorm numFrames signal
  let ps := findPeaksProm curve (fin peakThresh)
  let pabs := ps.map (fun (p : ℕ) => ((p : ℤ) - ((curve.length / 2 : ℕ) : ℤ)).natAbs)
  if 1 < ps.length then
    match npMinNat (pabs.filter (fun d => d ≠ 0)) with
    | some m => Py.ok (fin (qi m), curve)
    | none => Py.valueError
  else Py.ok (nan, List.replicate (numFrames * 2 - 1) nan)

/-- One (channel, box, subframe) iteration of `calc_ACF` in rolling mode
(lines 99-112): the analysed signal is the window
`series[roll_by*subframe : roll_size + roll_by*subframe]`, the curve is
normalized by `roll_size * std**2`, and the no-period branch stores
`num_frames*2-1` copies of `nan` (line 112 uses `self.num_frames`, not
`roll_size`). -/
def acfRollBox (numFrames rollSize rollBy : ℕ) (peakThresh : Q) (series : List Q)
    (subframe : ℕ) : Py (FVal × List FVal) :=
  let signal := (series.drop (rollBy * subframe)).take rollSize
  let curve := acfCurveNorm rollSize signal
  let ps := findPeaksProm curve (fin peakThresh)
  let pabs := ps.map (fun (p : ℕ) => ((p : ℤ) - ((curve.length / 2 : ℕ) : ℤ)).natAbs)
  if 1 < ps.length then
    match npMinNat (pabs.filter (fun d => d ≠ 0)) with
    | some m => Py.ok (fin (qi m), curve)
    | none => Py.valueError
  else Py.ok (nan, List.replicate (numFrames * 2 - 1) nan)

/-- The normalized cross-correlation curve (lines 130-132 and 145-147):
full correlation of the centred series, divided by
`nrm * std(s1) * std(s2) = nrm * sqrt(variance s1 * variance s2)`.
`Py.nonRational` marks the (modelling-only) case of an irrational square
root. -/
def ccCurveNorm (nrm : ℕ) (s1 s2 : List Q) : Py (List FVal) :=
  match ratSqrt (qmul (variance s1) (variance s2)) with
  | none => Py.nonRational
  | some sp =>
      Py.ok ((correlateFull (center s1) (center s2)).map
        (fun c => fdivQ c (qmul (qi nrm) sp)))

/-- The peak-selection step of `calc_CCF` (lines 134-137): all local maxima,
`argmin` of the distances to the curve centre (`none` models the
`ValueError` that `np.argmin` raises when no peak exists), shift = selected
peak index minus centre index. -/
def ccfShiftOfCurve (curve : List FVal) : Option ℤ :=
  let ps := localMaxima curve
  let pabs := ps.map (fun (p : ℕ) => ((p : ℤ) - ((curve.length / 2 : ℕ) : ℤ)).natAbs)
  (npArgmin pabs).map (fun j => ((ps.getD j 0 : ℕ) : ℤ) - ((curve.length / 2 : ℕ) : ℤ))

/-- One box iteration of `calc_CCF` in non-rolling mode (lines 126-138);
`s1` is the channel-2 series, `s2` the channel-1 series, and the curve is
normalized by `num_frames * std(s1) * std(s2)`. -/
def ccfStdBox (numFrames : ℕ) (s1 s2 : List Q) : Py (ℤ × List FVal) :=
  match ccCurveNorm numFrames s1 s2 with
  | Py.ok curve =>
      match ccfShiftOfCurve curve with
      | some sh => Py.ok (sh, curve)
      | none => Py.valueError
  | Py.valueError => Py.valueError
  | Py.nonRational => Py.nonRational

/-- One (subframe, box) iteration of `calc_CCF` in rolling mode
(lines 140-153): the series are windowed, but the curve is normalized by
`self.num_frames * std1 * std2` (line 147), not by `roll_size`. -/
def ccfRollBox (numFrames rollSize rollBy : ℕ) (s1 s2 : List Q) (subframe : ℕ) :
    Py (ℤ × List FVal) :=
  let w1 := (s1.drop (rollBy * subframe)).take rollSize
  let w2 := (s2.drop (rollBy * subframe)).take rollSize
  match ccCurveNorm numFrames w1 w2 with
  | Py.ok curve =>
      match ccfShiftOfCurve curve with
      | some sh => Py.ok (sh, curve)
      | none => Py.valueError
  | Py.valueError => Py.valueError
  | Py.nonRational => Py.nonRational

/-- Power-weighted sum `Σ_j (i0 + j) ^ k * ys[j]` feeding the normal
equations of the least-squares fit. -/
def sumPow (k : ℕ) : List Q → ℕ → Q
  | [], _ => qi 0
  | y :: ys, i => qadd (qmul (qi ((i : ℤ) ^ k)) y) (sumPow k ys (i + 1))

/-- Plain sum `Σ_j ys[j]`. -/
def sumP0 (ys : List Q) : Q := qsum ys

/-- Cramer determinant of the normal equations of an 11-point quadratic
least-squares fit (a fixed nonzero constant). -/
def savgolDet : Q :=
  qadd (qsub (qmul (qi 11) (qsub (qmul (qi 385) (qi 25333)) (qmul (qi 3025) (qi 3025))))
      (qmul (qi 55) (qsub (qmul (qi 55) (qi 25333)) (qmul (qi 385) (qi 3025)))))
    (qmul (qi 385) (qsub (qmul (qi 55) (qi 3025)) (qmul (qi 385) (qi 385))))

/-- Least-squares quadratic through the 11 points `(i, ys[i])`, `i = 0..10`,
evaluated at `t`: normal equations with power sums `S0..S4 = 11, 55, 385,
3025, 25333`, solved by Cramer.  This is the exact fit that
`savgol_filter(_, 11, 2)` evaluates. -/
def fitQuad11 (ys : List Q) (t : Q) : Q :=
  let s0 : Q := qi 11
  let s1 : Q := qi 55
  let s2 : Q := qi 385
  let s3 : Q := qi 3025
  let s4 : Q := qi 25333
  let v0 := sumP0 ys
  let v1 := sumPow 1 ys 0
  let v2 := sumPow 2 ys 0
  let na := qadd (qsub (qmul v0 (qsub (qmul s2 s4) (qmul s3 s3)))
      (qmul s1 (qsub (qmul v1 s4) (qmul v2 s3)))) (qmul s2 (qsub (qmul v1 s3) (qmul v2 s2)))
  let nb := qadd (qsub (qmul s0 (qsub (qmul v1 s4) (qmul v2 s3)))
      (qmul v0 (qsub (qmul s1 s4) (qmul s2 s3)))) (qmul s2 (qsub (qmul s1 v2) (qmul s2 v1)))
  let nc := qadd (qsub (qmul s0 (qsub (qmul s2 v2) (qmul s3 v1)))
      (qmul s1 (qsub (qmul s1 v2) (qmul s2 v1)))) (qmul v0 (qsub (qmul s1 s3) (qmul s2 s2)))
  qadd (qadd (qdiv na savgolDet) (qmul (qdiv nb savgolDet) t))
    (qmul (qdiv nc savgolDet) (qmul t t))

/-- Output sample `i` of `savgol_filter(x, 11, 2)`: the quadratic fitted to
the first/centred/last 11 samples, evaluated at the position of sample `i`
inside that window. -/
def savEntry (x : List Q) (n i : ℕ) : Q :=
  if i < 5 then fitQuad11 (x.take 11) (qi i)
  else if n - 6 < i then fitQuad11 (x.drop (n - 11)) (qi (i - (n - 11) : ℕ))
  else fitQuad11 ((x.drop (i - 5)).take 11) (qi 5)

def savgolFrom (x : List Q) (n : ℕ) : ℕ → ℕ → List Q
  | 0, _ => []
  | fuel + 1, i => savEntry x n i :: savgolFrom x n fuel (i + 1)

/-- Model of `scipy.signal.savgol_filter(x, window_length = 11, polyorder = 2)`. -/
def savgol11 (x : List Q) : List Q := savgolFrom x x.length x.length 0

/-- Model of `numpy.max` over a nonempty rational list. -/
def qmaxL : List Q → Q
  | [] => qi 0
  | y :: ys => ys.foldl (fun a b => if qlt a b then b else a) y

/-- Model of `numpy.min` over a nonempty rational list. -/
def qminL : List Q → Q
  | [] => qi 0
  | y :: ys => ys.foldl (fun a b => if qlt b a then b else a) y

/-- The smoothed signal of one box, as float values. -/
def smoothedF (series : List Q) : List FVal := (savgol11 series).map fin

/-- The `calc_peaks` prominence threshold: 10 percent of the smoothed
signal's range (line 167). -/
def peakThreshOf (series : List Q) : Q :=
  qmul (qsub (qmaxL (savgol11 series)) (qminL (savgol11 series))) ⟨1, 10⟩

/-- The peaks detected by `calc_peaks` for one box. -/
def peaksOf (series : List Q) : List ℕ :=
  findPeaksProm (smoothedF series) (fin (peakThreshOf series))

/-- The per-peak heights `signal[peaks]` of a smoothed signal. -/
def peakMaxes (sf : List FVal) (pks : List ℕ) : List FVal := pks.map (fun p => sf.getD p nan)

/-- The per-peak baselines `signal[peaks] - prominences`. -/
def peakMins (sf : List FVal) (pks : List ℕ) : List FVal :=
  List.zipWith fsub (peakMaxes sf pks) (pks.map (fun p => promOf sf p))

/-- One (channel, box) iteration of `calc_peaks` (lines 166-180): smooth with
`savgol_filter(_, 11, 2)`, detect peaks with prominence threshold
`(max - min) * 0.1` of the smoothed signal, and return the mean width, mean
max, mean min (`signal[peaks] - prominences`), amplitude
`mean_max - mean_min` and relative amplitude `mean_amp / mean_min`; all five
are `nan` when no peak is found.  `Py.valueError` models the scipy error
when the series is shorter than the smoothing window. -/
def calcPeaksBox (series : List Q) : Py (FVal × FVal × FVal × FVal × FVal) :=
  if series.length < 11 then Py.valueError
  else
    let sf := smoothedF series
    let pks := peaksOf series
    if pks = [] then Py.ok (nan, nan, nan, nan, nan)
    else
      let meanWidth := fmean (pks.map (fun p => peakWidth sf p))
      let meanMax := fmean (peakMaxes sf pks)
      let meanMin := fmean (peakMins sf pks)
      let meanAmp := fsub meanMax meanMin
      Py.ok (meanWidth, meanMax, meanMin, meanAmp, fdiv meanAmp meanMin)

/-- Following the words of the claim, not the code (for comparison with the
stored relative amplitude): the average over detected peaks of the per-peak
ratio `amplitude_i / min_i`, where `amplitude_i = max_i - min_i`. -/
def relAmpPerPeakAvg (series : List Q) : FVal :=
  let sf := smoothedF series
  let pks := peaksOf series
  fmean (List.zipWith (fun mx mn => fdiv (fsub mx mn) mn) (peakMaxes sf pks) (peakMins sf pks))

/-- An IEEE value that is finite with a well-formed (positive) denominator. -/
def finPos (v : FVal) : Prop := ∃ a, v = fin a ∧ 0 < a.den

/-- Projection to the finite fraction of a float value (`qi 0` for the
special values; used only under a `finPos` hypothesis). -/
def finVal : FVal → Q
  | fin a => a
  | _ => qi 0

/-- Test for `nan`. -/
def isNan : FVal → Bool
  | nan => true
  | _ => false

/-- The non-`nan` entries of a measurement list. -/
def dropNan (l : List FVal) : List FVal := l.filter (fun v => !isNan v)

/-- Model of `numpy.nanmean`. -/
def nanmean (l : List FVal) : FVal := fdiv (fsum (dropNan l)) (fin (qi (dropNan l).length))

/-- Insertion sort by IEEE `<=` (all comparands finite in use). -/
def finsert (v : FVal) : List FVal → List FVal
  | [] => [v]
  | a :: l => if fle v a then v :: a :: l else a :: finsert v l

def fsort : List FVal → List FVal
  | [] => []
  | a :: l => finsert a (fsort l)

/-- Model of `numpy.nanmedian`: middle of the sorted non-`nan` entries, the average of
the two middles for an even count. -/
def nanmedian (l : List FVal) : FVal :=
  let s := fsort (dropNan l)
  if s.length = 0 then nan
  else if s.length % 2 = 1 then s.getD (s.length / 2) nan
  else fdiv (fadd (s.getD (s.length / 2 - 1) nan) (s.getD (s.length / 2) nan)) (fin (qi 2))

/-- The square of `numpy.nanstd`: the population variance of the non-`nan`
entries. -/
def nanvarOf (l : List FVal) : FVal :=
  let nn := dropNan l
  fdiv (fsum (nn.map (fun v => fmul (fsub v (nanmean l)) (fsub v (nanmean l))))) (fin (qi nn.length))

/-- The square of the SEM inserted by `add_stats` (line 213):
`(nanstd l / sqrt (len l)) ** 2 = nanvar l / len l` — the denominator is the
full list length, `nan` entries included. -/
def semSqOf (l : List FVal) : FVal := fdiv (nanvarOf l) (fin (qi l.length))

/-- Model of `add_stats` (lines 204-219) without the leading name tag: the returned
list is `[mean, median, stddev, SEM] ++ measurements`.  The third and fourth
slots carry the squares of the inserted standard deviation and SEM (both are
nonnegative reals, so they are determined by these squares; the square root
itself is irrational in general). -/
def addStats (l : List FVal) : List FVal :=
  nanmean l :: nanmedian l :: nanvarOf l :: semSqOf l :: l

/-- Value of `num_subframes` computed on construction in rolling mode (line 49):
`(num_frames - roll_size) // roll_by`. -/
def numSubframes (numFrames rollSize rollBy : ℕ) : ℕ := (numFrames - rollSize) / rollBy

/-- Model of `numpy.mean` of a 2-D pixel slice: `nan` on an empty slice. -/
def npMean2 (m : List (List Q)) : FVal :=
  let px := m.flatten
  if px.length = 0 then nan else fin (qdiv (qsum px) (qi px.length))

/-- The pixel block selected for box `(x, y)` in `__init__` (line 56): rows
`x*b : x*b+b` of the frame, columns `y*b : y*b+b` (the row axis is indexed
by `x`, which counts boxes along the *column* extent `x_dim = shape[-1]`). -/
def pixelSlice (frame : List (List Q)) (b x y : ℕ) : List (List Q) :=
  ((frame.drop (x * b)).take b).map (fun row => (row.drop (y * b)).take b)

/-- The mean time series of box `(x, y)` of one channel: one mean per frame
(an image is a list of frames, each a list of channels, each a row-major
pixel grid). -/
def boxMeanSeries (img : List (List (List (List Q)))) (b ch x y : ℕ) : List FVal :=
  img.map (fun fr => npMean2 (pixelSlice ((fr.getD ch [])) b x y))

/-- Count `x_boxes = x_dim // box_size` with `x_dim = image.shape[-1]` (the column
count). -/
def xBoxesOf (img : List (List (List (List Q)))) (b : ℕ) : ℕ :=
  ((((img.getD 0 []).getD 0 []).getD 0 []).length) / b

/-- Count `y_boxes = y_dim // box_size` with `y_dim = image.shape[-2]` (the row
count). -/
def yBoxesOf (img : List (List (List (List Q)))) (b : ℕ) : ℕ :=
  (((img.getD 0 []).getD 0 []).length) / b

/-- Projection: the shift of a `calc_CCF` box result. -/
def pyShiftOf : Py (ℤ × List FVal) → Option ℤ
  | Py.ok sc => some sc.1
  | _ => none

/-- Projection: the stored curve of a `calc_CCF` box result. -/
def pyCurveOf : Py (ℤ × List FVal) → List FVal
  | Py.ok sc => sc.2
  | _ => []

/-- Projection: the stored relative amplitude of a `calc_peaks` box result. -/
def pyRelAmpOf : Py (FVal × FVal × FVal × FVal × FVal) → FVal
  | Py.ok t => t.2.2.2.2
  | _ => nan

/- ---------- concrete inputs used by the evaluation theorems ---------- -/

/-- A 20-frame linear ramp; its first rolling window (frames 0-9) has a
single-peak autocorrelation curve. -/
def rampSeries : List Q := (List.range 20).map (fun n => qi n)

/-- A constant 12-frame series (every value 5): zero variance. -/
def constSeries12 : List Q := List.replicate 12 (qi 5)

/-- A constant 5-frame series (every value 3): zero variance. -/
def constSeries5 : List Q := List.replicate 5 (qi 3)

/-- Channel-2 series for the rolling CCF example: alternating 0, 2 (window
variance 1). -/
def altSeriesA : List Q := (List.range 20).map (fun n => if n % 2 = 0 then qi 0 else qi 2)

/-- Channel-1 series for the rolling CCF example: alternating 2, 0. -/
def altSeriesB : List Q := (List.range 20).map (fun n => if n % 2 = 0 then qi 2 else qi 0)

/-- The first rolling window (size 10) of `altSeriesA`. -/
def altWinA : List Q := (altSeriesA.drop 0).take 10

/-- The first rolling window (size 10) of `altSeriesB`. -/
def altWinB : List Q := (altSeriesB.drop 0).take 10

/-- A 22-frame series with two smoothed peaks of different heights and
baselines (peak statistics differ between ratio-of-means and
mean-of-ratios). -/
def twoPeakSeries : List Q :=
  [qi 1, qi 2, qi 4, qi 7, qi 9, qi 7, qi 4, qi 2, qi 1, qi 1, qi 2,
   qi 5, qi 10, qi 16, qi 20, qi 16, qi 10, qi 5, qi 2, qi 1, qi 1, qi 1]

/-- The measurement list `[1, 2, 3, NaN]` of the aggregation test. -/
def statList : List FVal := [fin (qi 1), fin (qi 2), fin (qi 3), nan]

/-- A 1-frame, 1-channel, 2-row x 4-column image: row 0 is `1 2 10 20`,
row 1 is `3 4 30 40`. -/
def wideImage : List (List (List (List Q))) :=
  [[[[qi 1, qi 2, qi 10, qi 20], [qi 3, qi 4, qi 30, qi 40]]]]

/-- A symmetric five-entry correlation curve with a dip at the centre: local
maxima at indices 1 and 3, both at distance 1 from the centre index 2. -/
def tieCurve : List FVal := [fin (qi 0), fin (qi 1), fin (qi 0), fin (qi 1), fin (qi 0)]

/-- A short test series for the autocorrelation symmetry witness. -/
def acfWitSeries : List Q := [qi 1, qi 2, qi 4]

/- ------------------------- supporting lemmas ------------------------- -/

theorem plateauEndAux_ge (x : List FVal) (v : FVal) (iMax : ℕ) :
    ∀ fuel j, j ≤ plateauEndAux x v iMax fuel j := by
  intro fuel
  induction fuel with
  | zero => intro j; simp [plateauEndAux]
  | succ n ih =>
      intro j
      simp only [plateauEndAux]
      split
      · exact le_trans (Nat.le_succ j) (ih (j + 1))
      · exact le_refl j

theorem lmAux_lower (x : List FVal) (iMax : ℕ) :
    ∀ fuel i p, p ∈ lmAux x iMax fuel i → i ≤ p := by
  intro fuel
  induction fuel with
  | zero => intro i p hp; simp [lmAux] at hp
  | succ n ih =>
      intro i p hp
      by_cases h1 : i < iMax
      · simp only [lmAux, if_pos h1] at hp
        by_cases h2 : flt (x.getD (i - 1) nan) (x.getD i nan) = true
        · rw [if_pos h2] at hp
          by_cases h3 : flt (x.getD (plateauEndAux x (x.getD i nan) iMax x.length (i + 1)) nan)
              (x.getD i nan) = true
          · rw [if_pos h3] at hp
            rcases List.mem_cons.mp hp with hp | hp
            · subst hp
              have hia : i + 1 ≤ plateauEndAux x (x.getD i nan) iMax x.length (i + 1) :=
                plateauEndAux_ge x (x.getD i nan) iMax x.length (i + 1)
              have : 2 * i ≤ i + (plateauEndAux x (x.getD i nan) iMax x.length (i + 1) - 1) := by
                omega
              omega
            · have := ih _ _ hp
              have hia : i + 1 ≤ plateauEndAux x (x.getD i nan) iMax x.length (i + 1) :=
                plateauEndAux_ge x (x.getD i nan) iMax x.length (i + 1)
              omega
          · rw [if_neg h3] at hp
            have := ih _ _ hp
            omega
        · rw [if_neg h2] at hp
          have := ih _ _ hp
          omega
      · simp only [lmAux, if_neg h1] at hp
        exact absurd hp (List.not_mem_nil p)

theorem plateauEndAux_le (x : List FVal) (v : FVal) (iMax : ℕ) :
    ∀ fuel j, j ≤ iMax → plateauEndAux x v iMax fuel j ≤ iMax := by
  intro fuel
  induction fuel with
  | zero => intro j hj; simpa [plateauEndAux] using hj
  | succ n ih =>
      intro j hj
      simp only [plateauEndAux]
      split
      · next h => exact ih (j + 1) h.1
      · exact hj

theorem lmAux_sorted (x : List FVal) (iMax : ℕ) :
    ∀ fuel i, List.Sorted (· < ·) (lmAux x iMax fuel i) := by
  intro fuel
  induction fuel with
  | zero => intro i; simp [lmAux]
  | succ n ih =>
      intro i
      by_cases h1 : i < iMax
      · simp only [lmAux, if_pos h1]
        by_cases h2 : flt (x.getD (i - 1) nan) (x.getD i nan) = true
        · rw [if_pos h2]
          by_cases h3 : flt (x.getD (plateauEndAux x (x.getD i nan) iMax x.length (i + 1)) nan)
              (x.getD i nan) = true
          · rw [if_pos h3]
            refine List.sorted_cons.mpr ⟨?_, ih _⟩
            intro q hq
            have hq2 := lmAux_lower x iMax n _ q hq
            have hia : i + 1 ≤ plateauEndAux x (x.getD i nan) iMax x.length (i + 1) :=
              plateauEndAux_ge x (x.getD i nan) iMax x.length (i + 1)
            omega
          · rw [if_neg h3]; exact ih _
        · rw [if_neg h2]; exact ih _
      · simp only [lmAux, if_neg h1]
        simp

theorem localMaxima_sorted (x : List FVal) : List.Sorted (· < ·) (localMaxima x) :=
  lmAux_sorted x (x.length - 1) x.length 1

theorem lmAux_upper (x : List FVal) (iMax : ℕ) :
    ∀ fuel i p, p ∈ lmAux x iMax fuel i → p < iMax := by
  intro fuel
  induction fuel with
  | zero => intro i p hp; simp [lmAux] at hp
  | succ n ih =>
      intro i p hp
      by_cases h1 : i < iMax
      · simp only [lmAux, if_pos h1] at hp
        by_cases h2 : flt (x.getD (i - 1) nan) (x.getD i nan) = true
        · rw [if_pos h2] at hp
          by_cases h3 : flt (x.getD (plateauEndAux x (x.getD i nan) iMax x.length (i + 1)) nan)
              (x.getD i nan) = true
          · rw [if_pos h3] at hp
            rcases List.mem_cons.mp hp with hp | hp
            · subst hp
              have hia2 : plateauEndAux x (x.getD i nan) iMax x.length (i + 1) ≤ iMax :=
                plateauEndAux_le x (x.getD i nan) iMax x.length (i + 1) h1
              have hia : i + 1 ≤ plateauEndAux x (x.getD i nan) iMax x.length (i + 1) :=
                plateauEndAux_ge x (x.getD i nan) iMax x.length (i + 1)
              omega
            · exact ih _ _ hp
          · rw [if_neg h3] at hp
            exact ih _ _ hp
        · rw [if_neg h2] at hp
          exact ih _ _ hp
      · simp only [lmAux, if_neg h1] at hp
        exact absurd hp (List.not_mem_nil p)

theorem localMaxima_lt_length (x : List FVal) (p : ℕ) (hp : p ∈ localMaxima x) :
    p < x.length := by
  have h := lmAux_upper x (x.length - 1) x.length 1 p hp
  omega

theorem argminAux_stable : ∀ (l : List ℕ) (bv bi ci : ℕ), (∀ v ∈ l, bv ≤ v) →
    argminAux l bv bi ci = bi := by
  intro l
  induction l with
  | nil => intro bv bi ci _; rfl
  | cons b l ih =>
      intro bv bi ci hall
      have hb : bv ≤ b := hall b (List.mem_cons_self b l)
      simp only [argminAux, if_neg (Nat.not_lt.mpr hb)]
      exact ih bv bi (ci + 1) (fun v hv => hall v (List.mem_cons_of_mem b hv))

theorem argminAux_hits (d : ℕ) (suf : List ℕ) (hsuf : ∀ v ∈ suf, d ≤ v) :
    ∀ (pre : List ℕ) (bv bi ci : ℕ), (∀ v ∈ pre, d < v) → d < bv →
    argminAux (pre ++ d :: suf) bv bi ci = ci + pre.length := by
  intro pre
  induction pre with
  | nil =>
      intro bv bi ci _ hbv
      simp only [List.nil_append, argminAux, if_pos hbv]
      simpa using argminAux_stable suf d ci (ci + 1) hsuf
  | cons a pre ih =>
      intro bv bi ci hpre hbv
      have had : d < a := hpre a (List.mem_cons_self a pre)
      have hrest : ∀ v ∈ pre, d < v := fun v hv => hpre v (List.mem_cons_of_mem a hv)
      simp only [List.cons_append, argminAux, List.append_eq]
      split
      · rw [ih a ci (ci + 1) hrest had]
        simp [List.length_cons]
        omega
      · rw [ih bv bi (ci + 1) hrest hbv]
        simp [List.length_cons]
        omega

theorem npArgmin_first (pre : List ℕ) (d : ℕ) (suf : List ℕ)
    (hpre : ∀ v ∈ pre, d < v) (hsuf : ∀ v ∈ suf, d ≤ v) :
    npArgmin (pre ++ d :: suf) = some pre.length := by
  cases pre with
  | nil =>
      simp only [List.nil_append, npArgmin]
      rw [argminAux_stable suf d 0 1 hsuf]
      rfl
  | cons a pre =>
      simp only [List.cons_append, npArgmin]
      have had : d < a := hpre a (List.mem_cons_self a pre)
      have hrest : ∀ v ∈ pre, d < v := fun v hv => hpre v (List.mem_cons_of_mem a hv)
      rw [argminAux_hits d suf hsuf pre a 0 1 hrest had]
      simp [List.length_cons]
      omega

theorem dist_eq_cases (a p1 p2 : ℕ) (c : ℤ)
    (hp : (p2 : ℤ) - c = -((p1 : ℤ) - c))
    (hd : ((a : ℤ) - c).natAbs = ((p1 : ℤ) - c).natAbs) : a = p1 ∨ a = p2 := by
  rcases Int.natAbs_eq_natAbs_iff.mp hd with h | h
  · left; omega
  · right; omega

/-- The tie-breaking core of `calc_CCF`: with the distances to the curve
centre, the first-occurrence `argmin` over the sorted peak list selects the
leftmost peak among the closest ones. -/
theorem ccfShift_eq_of_split (curve : List FVal) (s t : List ℕ) (p1 : ℕ)
    (hst : localMaxima curve = s ++ p1 :: t)
    (hs : ∀ v ∈ s, ((p1 : ℤ) - ((curve.length / 2 : ℕ) : ℤ)).natAbs <
      ((v : ℤ) - ((curve.length / 2 : ℕ) : ℤ)).natAbs)
    (ht : ∀ v ∈ t, ((p1 : ℤ) - ((curve.length / 2 : ℕ) : ℤ)).natAbs ≤
      ((v : ℤ) - ((curve.length / 2 : ℕ) : ℤ)).natAbs) :
    ccfShiftOfCurve curve = some ((p1 : ℤ) - ((curve.length / 2 : ℕ) : ℤ)) := by
  have hmapped : (localMaxima curve).map
      (fun (p : ℕ) => ((p : ℤ) - ((curve.length / 2 : ℕ) : ℤ)).natAbs)
      = (s.map (fun (p : ℕ) => ((p : ℤ) - ((curve.length / 2 : ℕ) : ℤ)).natAbs))
        ++ ((p1 : ℤ) - ((curve.length / 2 : ℕ) : ℤ)).natAbs ::
          (t.map (fun (p : ℕ) => ((p : ℤ) - ((curve.length / 2 : ℕ) : ℤ)).natAbs)) := by
    rw [hst, List.map_append, List.map_cons]
  have hargmin := npArgmin_first
    (s.map (fun (p : ℕ) => ((p : ℤ) - ((curve.length / 2 : ℕ) : ℤ)).natAbs))
    (((p1 : ℤ) - ((curve.length / 2 : ℕ) : ℤ)).natAbs)
    (t.map (fun (p : ℕ) => ((p : ℤ) - ((curve.length / 2 : ℕ) : ℤ)).natAbs))
    (by
      intro v hv
      rcases List.mem_map.mp hv with ⟨a, ha, rfl⟩
      exact hs a ha)
    (by
      intro v hv
      rcases List.mem_map.mp hv with ⟨a, ha, rfl⟩
      exact ht a ha)
  simp only [ccfShiftOfCurve, hmapped, hargmin, Option.map_some]
  rw [hst]
  have hlen : (s.map (fun (p : ℕ) => ((p : ℤ) - ((curve.length / 2 : ℕ) : ℤ)).natAbs)).length
      = s.length := List.length_map s _
  rw [hlen]
  simp only [Option.map_some']
  rw [List.getD_append_right s (p1 :: t) _ _ (le_refl s.length)]
  simp

/-- C10: when two detected cross-correlation peaks sit at the same, minimal
distance from the curve centre, the first-occurrence `argmin` over the
(sorted, ascending) peak list selects the leftmost of the two, so the
reported shift is deterministically the negative member of the tie. -/
theorem C10_ccf_tie_leftmost (curve : List FVal) (p1 p2 : ℕ)
    (h1 : p1 ∈ localMaxima curve) (hmem2 : p2 ∈ localMaxima curve) (h12 : p1 < p2)
    (heq : ((p1 : ℤ) - ((curve.length / 2 : ℕ) : ℤ)).natAbs
         = ((p2 : ℤ) - ((curve.length / 2 : ℕ) : ℤ)).natAbs)
    (hmin : ∀ p ∈ localMaxima curve,
      ((p1 : ℤ) - ((curve.length / 2 : ℕ) : ℤ)).natAbs ≤
        ((p : ℤ) - ((curve.length / 2 : ℕ) : ℤ)).natAbs) :
    ccfShiftOfCurve curve = some ((p1 : ℤ) - ((curve.length / 2 : ℕ) : ℤ))
      ∧ (p1 : ℤ) - ((curve.length / 2 : ℕ) : ℤ) < 0 := by
  have hp2c : (p2 : ℤ) - ((curve.length / 2 : ℕ) : ℤ)
      = -((p1 : ℤ) - ((curve.length / 2 : ℕ) : ℤ)) := by
    rcases Int.natAbs_eq_natAbs_iff.mp heq with h | h
    · omega
    · omega
  obtain ⟨s, t, hst⟩ := List.append_of_mem h1
  have hsort := localMaxima_sorted curve
  rw [hst] at hsort
  have hsort2 : List.Pairwise (· < ·) (s ++ p1 :: t) := hsort
  rcases List.pairwise_append.mp hsort2 with ⟨_, _, hcross⟩
  have hslt : ∀ a ∈ s, a < p1 := fun a ha => hcross a ha p1 (List.mem_cons_self p1 t)
  have hres := ccfShift_eq_of_split curve s t p1 hst
    (by
      intro a ha
      have hd := hmin a (by rw [hst]; exact List.mem_append_left (p1 :: t) ha)
      rcases Nat.lt_or_ge (((p1 : ℤ) - ((curve.length / 2 : ℕ) : ℤ)).natAbs)
          (((a : ℤ) - ((curve.length / 2 : ℕ) : ℤ)).natAbs) with hlt | hge
      · exact hlt
      · exfalso
        have heqd : ((a : ℤ) - ((curve.length / 2 : ℕ) : ℤ)).natAbs
            = ((p1 : ℤ) - ((curve.length / 2 : ℕ) : ℤ)).natAbs := le_antisymm hge hd
        rcases dist_eq_cases a p1 p2 _ hp2c heqd with h | h
        · exact absurd h (Nat.ne_of_lt (hslt a ha))
        · have h1a := hslt a ha
          omega)
    (by
      intro v hv
      exact hmin v (by rw [hst]; exact List.mem_append_right s (List.mem_cons_of_mem p1 hv)))
  refine ⟨hres, ?_⟩
  omega

theorem qi_pos (n : ℤ) : 0 < (qi n).den := by simp [qi]

theorem qadd_pos {a b : Q} (ha : 0 < a.den) (hb : 0 < b.den) : 0 < (qadd a b).den :=
  mul_pos ha hb

theorem qneg_pos {a : Q} (ha : 0 < a.den) : 0 < (qneg a).den := ha

theorem qsub_pos {a b : Q} (ha : 0 < a.den) (hb : 0 < b.den) : 0 < (qsub a b).den :=
  qadd_pos ha hb

theorem qmul_pos {a b : Q} (ha : 0 < a.den) (hb : 0 < b.den) : 0 < (qmul a b).den :=
  mul_pos ha hb

theorem qdiv_pos {a b : Q} (ha : 0 < a.den) (hb : b.num ≠ 0) : 0 < (qdiv a b).den := by
  unfold qdiv
  split
  · next h => exact mul_pos ha (by omega)
  · next h => exact mul_pos ha (by omega)

theorem toRat_qi (n : ℤ) : (qi n).toRat = (n : ℚ) := by simp [qi, Q.toRat]

theorem toRat_qadd {a b : Q} (ha : 0 < a.den) (hb : 0 < b.den) :
    (qadd a b).toRat = a.toRat + b.toRat := by
  unfold qadd Q.toRat
  have ha2 : ((a.den : ℚ)) ≠ 0 := by exact_mod_cast ha.ne'
  have hb2 : ((b.den : ℚ)) ≠ 0 := by exact_mod_cast hb.ne'
  push_cast
  field_simp

theorem toRat_qneg (a : Q) : (qneg a).toRat = -a.toRat := by
  unfold qneg Q.toRat
  push_cast
  ring

theorem toRat_qsub {a b : Q} (ha : 0 < a.den) (hb : 0 < b.den) :
    (qsub a b).toRat = a.toRat - b.toRat := by
  unfold qsub
  rw [toRat_qadd ha (qneg_pos hb), toRat_qneg]
  ring

theorem toRat_qmul (a b : Q) : (qmul a b).toRat = a.toRat * b.toRat := by
  unfold qmul Q.toRat
  rw [div_mul_div_comm]
  push_cast
  rfl

theorem toRat_qdiv (a b : Q) : (qdiv a b).toRat = a.toRat / b.toRat := by
  have key : a.toRat / b.toRat = ((a.num * b.den : ℤ) : ℚ) / ((a.den * b.num : ℤ) : ℚ) := by
    unfold Q.toRat
    rw [div_div_div_eq]
    push_cast
    rfl
  unfold qdiv
  split
  · next h =>
      rw [key]
      unfold Q.toRat
      push_cast
      rw [← neg_div_neg_eq ((a.num : ℚ) * b.den) ((a.den : ℚ) * b.num)]
      ring_nf
  · next h =>
      rw [key]
      unfold Q.toRat
      push_cast
      rfl

theorem toRat_eq_zero_iff {a : Q} (ha : 0 < a.den) : a.toRat = 0 ↔ a.num = 0 := by
  unfold Q.toRat
  have had : ((a.den : ℚ)) ≠ 0 := by exact_mod_cast ha.ne'
  constructor
  · intro h
    have := (div_eq_zero_iff.mp h).resolve_right had
    exact_mod_cast this
  · intro h
    rw [h]
    simp

theorem toRat_pos_iff {a : Q} (ha : 0 < a.den) : 0 < a.toRat ↔ 0 < a.num := by
  unfold Q.toRat
  have had : (0 : ℚ) < (a.den : ℚ) := by exact_mod_cast ha
  rw [div_pos_iff]
  constructor
  · rintro (⟨h, _⟩ | ⟨_, h⟩)
    · exact_mod_cast h
    · exact absurd h (not_lt.mpr had.le)
  · intro h
    exact Or.inl ⟨by exact_mod_cast h, had⟩

theorem qsum_pos (l : List Q) (hl : ∀ a ∈ l, 0 < a.den) : 0 < (qsum l).den := by
  induction l with
  | nil => simp [qsum, qi]
  | cons a l ih =>
      have ha : 0 < a.den := hl a (List.mem_cons_self a l)
      have ht : 0 < (qsum l).den := ih (fun b hb => hl b (List.mem_cons_of_mem a hb))
      simpa [qsum] using qadd_pos ha ht

theorem toRat_qsum (l : List Q) (hl : ∀ a ∈ l, 0 < a.den) :
    (qsum l).toRat = (l.map Q.toRat).sum := by
  induction l with
  | nil => simp [qsum, toRat_qi]
  | cons a l ih =>
      have ha : 0 < a.den := hl a (List.mem_cons_self a l)
      have ht : ∀ b ∈ l, 0 < b.den := fun b hb => hl b (List.mem_cons_of_mem a hb)
      have : qsum (a :: l) = qadd a (qsum l) := rfl
      rw [this, toRat_qadd ha (qsum_pos l ht), ih ht]
      simp

theorem getD_cases (l : List Q) (n : ℕ) (d : Q) : l.getD n d ∈ l ∨ l.getD n d = d := by
  by_cases h : n < l.length
  · left
    rw [List.getD_eq_getElem l d h]
    exact List.getElem_mem h
  · right
    exact List.getD_eq_default l d (le_of_not_lt h)

theorem getZ_pos (v : List Q) (hv : ∀ a ∈ v, 0 < a.den) (i : ℤ) : 0 < (getZ v i).den := by
  unfold getZ
  split
  · rcases getD_cases v i.toNat (qi 0) with h | h
    · exact hv _ h
    · rw [h]; exact qi_pos 0
  · exact qi_pos 0

theorem getZ_zero_outside (v : List Q) (i : ℤ) (h : i < 0 ∨ (v.length : ℤ) ≤ i) :
    getZ v i = qi 0 := by
  unfold getZ
  rw [if_neg]
  omega

theorem sum_list_range (n : ℕ) (f : ℕ → ℚ) :
    ((List.range n).map f).sum = ∑ i in Finset.range n, f i := by
  induction n with
  | zero => simp
  | succ m ih => rw [List.range_succ, List.map_append, List.sum_append, Finset.sum_range_succ, ih]; simp

theorem corrEntry_pos (a v : List Q) (ha : ∀ x ∈ a, 0 < x.den) (hv : ∀ x ∈ v, 0 < x.den)
    (k : ℕ) : 0 < (corrEntry a v k).den := by
  unfold corrEntry
  apply qsum_pos
  intro x hx
  rcases List.mem_map.mp hx with ⟨n, _, rfl⟩
  exact qmul_pos (getZ_pos a ha n) (getZ_pos v hv _)

theorem toRat_corrEntry (a v : List Q) (ha : ∀ x ∈ a, 0 < x.den) (hv : ∀ x ∈ v, 0 < x.den)
    (k : ℕ) : (corrEntry a v k).toRat
      = ∑ n in Finset.range a.length,
          (getZ a n).toRat * (getZ v ((n : ℤ) + v.length - 1 - k)).toRat := by
  unfold corrEntry
  rw [toRat_qsum _ (by
    intro x hx
    rcases List.mem_map.mp hx with ⟨n, _, rfl⟩
    exact qmul_pos (getZ_pos a ha n) (getZ_pos v hv _))]
  rw [List.map_map, ← sum_list_range]
  apply congrArg List.sum
  apply List.map_congr_left
  intro n _
  simp only [Function.comp_apply]
  exact toRat_qmul _ _

theorem sum_shift_mirror (g : ℤ → ℚ) (L : ℕ)
    (hg : ∀ i : ℤ, i < 0 ∨ (L : ℤ) ≤ i → g i = 0) (e : ℕ) :
    ∑ n in Finset.range L, g n * g ((n : ℤ) + e)
      = ∑ n in Finset.range L, g n * g ((n : ℤ) - e) := by
  have hL : ∑ n in Finset.range L, g n * g ((n : ℤ) + e)
      = ∑ n in Finset.range (L - e), g n * g ((n : ℤ) + e) := by
    symm
    apply Finset.sum_subset
    · exact Finset.range_subset.mpr (Nat.sub_le L e)
    · intro x hx hx2
      have h1 : L - e ≤ x := by
        by_contra hcon
        exact hx2 (Finset.mem_range.mpr (lt_of_not_ge hcon))
      have h2 : x < L := Finset.mem_range.mp hx
      have : g ((x : ℤ) + e) = 0 := by
        apply hg
        right
        omega
      rw [this, mul_zero]
  have hR : ∑ n in Finset.range L, g n * g ((n : ℤ) - e)
      = ∑ n in Finset.Ico e L, g n * g ((n : ℤ) - e) := by
    symm
    apply Finset.sum_subset
    · rw [Finset.range_eq_Ico]
      exact Finset.Ico_subset_Ico (Nat.zero_le e) (le_refl L)
    · intro x hx hx2
      have h2 : x < L := Finset.mem_range.mp hx
      have h1 : x < e := by
        by_contra hcon
        exact hx2 (Finset.mem_Ico.mpr ⟨le_of_not_lt hcon, h2⟩)
      have : g ((x : ℤ) - e) = 0 := by
        apply hg
        left
        omega
      rw [this, mul_zero]
  rw [hL, hR, Finset.sum_Ico_eq_sum_range]
  apply Finset.sum_congr rfl
  intro n _
  have h1 : ((e + n : ℕ) : ℤ) - (e : ℤ) = (n : ℤ) := by push_cast; ring
  have h2 : ((e + n : ℕ) : ℤ) = (n : ℤ) + (e : ℤ) := by push_cast; ring
  rw [h1, h2]
  ring

theorem qmean_pos (l : List Q) (hl : ∀ a ∈ l, 0 < a.den) (hne : 0 < l.length) :
    0 < (qmean l).den := by
  apply qdiv_pos (qsum_pos l hl)
  have h2 : ((l.length : ℤ)) ≠ 0 := by exact_mod_cast hne.ne'
  simpa [qi] using h2

theorem center_pos (l : List Q) (hl : ∀ a ∈ l, 0 < a.den) (hne : 0 < l.length) :
    ∀ x ∈ center l, 0 < x.den := by
  intro x hx
  rcases List.mem_map.mp hx with ⟨a, ha, rfl⟩
  exact qsub_pos (hl a ha) (qmean_pos l hl hne)

theorem corrEntry_self_symm_le (c : List Q) (hc : ∀ x ∈ c, 0 < x.den) (k : ℕ)
    (hk : k ≤ c.length - 1) (hL : 1 ≤ c.length) :
    (corrEntry c c k).toRat = (corrEntry c c (2 * c.length - 2 - k)).toRat := by
  have hg : ∀ i : ℤ, i < 0 ∨ ((c.length : ℕ) : ℤ) ≤ i → (getZ c i).toRat = 0 := by
    intro i hi
    rw [getZ_zero_outside c i hi, toRat_qi]
    simp
  rw [toRat_corrEntry c c hc hc k, toRat_corrEntry c c hc hc (2 * c.length - 2 - k)]
  have h1 : ∀ n ∈ Finset.range c.length,
      (getZ c n).toRat * (getZ c ((n : ℤ) + c.length - 1 - k)).toRat
        = (getZ c n).toRat * (getZ c ((n : ℤ) + ((c.length - 1 - k : ℕ) : ℤ))).toRat := by
    intro n _
    have : (n : ℤ) + c.length - 1 - k = (n : ℤ) + ((c.length - 1 - k : ℕ) : ℤ) := by
      omega
    rw [this]
  have h2 : ∀ n ∈ Finset.range c.length,
      (getZ c n).toRat * (getZ c ((n : ℤ) + c.length - 1 - ((2 * c.length - 2 - k : ℕ) : ℤ))).toRat
        = (getZ c n).toRat * (getZ c ((n : ℤ) - ((c.length - 1 - k : ℕ) : ℤ))).toRat := by
    intro n _
    have : (n : ℤ) + c.length - 1 - ((2 * c.length - 2 - k : ℕ) : ℤ)
        = (n : ℤ) - ((c.length - 1 - k : ℕ) : ℤ) := by
      omega
    rw [this]
  rw [Finset.sum_congr rfl h1, Finset.sum_congr rfl h2]
  exact sum_shift_mirror (fun i => (getZ c i).toRat) c.length hg (c.length - 1 - k)

theorem corrEntry_self_symm (c : List Q) (hc : ∀ x ∈ c, 0 < x.den) (k : ℕ)
    (hk : k ≤ 2 * c.length - 2) (hL : 1 ≤ c.length) :
    (corrEntry c c k).toRat = (corrEntry c c (2 * c.length - 2 - k)).toRat := by
  by_cases h : k ≤ c.length - 1
  · exact corrEntry_self_symm_le c hc k h hL
  · have h2 : 2 * c.length - 2 - k ≤ c.length - 1 := by omega
    have := corrEntry_self_symm_le c hc (2 * c.length - 2 - k) h2 hL
    have h3 : 2 * c.length - 2 - (2 * c.length - 2 - k) = k := by omega
    rw [h3] at this
    exact this.symm

theorem fdivQ_sameVal_num (a1 a2 b : Q) (h1 : 0 < a1.den) (h2 : 0 < a2.den)
    (heq : a1.toRat = a2.toRat) : FVal.sameVal (fdivQ a1 b) (fdivQ a2 b) := by
  have hzero : a1.num = 0 ↔ a2.num = 0 := by
    rw [← toRat_eq_zero_iff h1, ← toRat_eq_zero_iff h2, heq]
  have hpos : 0 < a1.num ↔ 0 < a2.num := by
    rw [← toRat_pos_iff h1, ← toRat_pos_iff h2, heq]
  unfold fdivQ
  by_cases hb : b.num = 0
  · rw [if_pos hb, if_pos hb]
    by_cases hz : a1.num = 0
    · rw [if_pos hz, if_pos (hzero.mp hz)]
      exact rfl
    · rw [if_neg hz, if_neg (fun h => hz (hzero.mpr h))]
      by_cases hp : 0 < a1.num
      · rw [if_pos hp, if_pos (hpos.mp hp)]
        exact rfl
      · rw [if_neg hp, if_neg (fun h => hp (hpos.mpr h))]
        exact rfl
  · rw [if_neg hb, if_neg hb]
    show (qdiv a1 b).toRat = (qdiv a2 b).toRat
    rw [toRat_qdiv, toRat_qdiv, heq]

theorem getD_map_range (n k : ℕ) (f : ℕ → FVal) (d : FVal) (h : k < n) :
    ((List.range n).map f).getD k d = f k := by
  rw [List.getD_eq_getElem?_getD, List.getElem?_map, List.getElem?_range h]
  rfl

theorem acfCurveNorm_entry (nrm : ℕ) (s : List Q) (k : ℕ) (h : k < 2 * s.length - 1) :
    (acfCurveNorm nrm s).getD k nan
      = fdivQ (corrEntry (center s) (center s) k) (qmul (qi nrm) (variance s)) := by
  unfold acfCurveNorm correlateFull
  rw [List.map_map]
  have hlen : (center s).length = s.length := List.length_map s _
  rw [hlen]
  have h2 : k < s.length + s.length - 1 := by omega
  rw [getD_map_range _ _ _ _ h2]
  rfl

theorem acfCurve_symm_core (nrm : ℕ) (s : List Q) (hs : ∀ a ∈ s, 0 < a.den) (i : ℕ)
    (hi : i < 2 * s.length - 1) :
    FVal.sameVal ((acfCurveNorm nrm s).getD i nan)
      ((acfCurveNorm nrm s).getD (2 * s.length - 2 - i) nan) := by
  have hL : 1 ≤ s.length := by omega
  have hc : ∀ x ∈ center s, 0 < x.den := center_pos s hs (by omega)
  have hclen : (center s).length = s.length := List.length_map s _
  have hi2 : 2 * s.length - 2 - i < 2 * s.length - 1 := by omega
  rw [acfCurveNorm_entry nrm s i hi, acfCurveNorm_entry nrm s _ hi2]
  apply fdivQ_sameVal_num _ _ _
    (corrEntry_pos _ _ hc hc i) (corrEntry_pos _ _ hc hc _)
  have := corrEntry_self_symm (center s) hc i (by omega) (by omega)
  rwa [hclen] at this

theorem fle_nan_left (v : FVal) : fle nan v = false := by
  cases v <;> rfl

theorem finPos_fsub {u v : FVal} (hu : finPos u) (hv : finPos v) : finPos (fsub u v) := by
  rcases hu with ⟨a, rfl, ha⟩
  rcases hv with ⟨b, rfl, hb⟩
  exact ⟨qsub a b, rfl, qsub_pos ha hb⟩

theorem finPos_fmax {u v : FVal} (hu : finPos u) (hv : finPos v) : finPos (fmax u v) := by
  unfold fmax
  split
  · exact hv
  · exact hu

theorem mapfin_getD_cases (sg : List Q) (hsg : ∀ a ∈ sg, 0 < a.den) (i : ℕ) :
    (sg.map fin).getD i nan = nan ∨ finPos ((sg.map fin).getD i nan) := by
  by_cases h : i < sg.length
  · right
    have h2 : i < (sg.map fin).length := by simpa using h
    rw [List.getD_eq_getElem _ _ h2]
    rw [List.getElem_map]
    exact ⟨sg[i], rfl, hsg _ (List.getElem_mem h)⟩
  · left
    apply List.getD_eq_default
    simpa using le_of_not_lt h

theorem promLeftAux_finPos (x : List FVal)
    (hx : ∀ i, x.getD i nan = nan ∨ finPos (x.getD i nan)) (hpk : FVal) :
    ∀ i m b, finPos m → finPos (promLeftAux x hpk i m b).1 := by
  intro i
  induction i with
  | zero =>
      intro m b hm
      simp only [promLeftAux]
      split
      · next hcl =>
          split
          · rcases hx 0 with h | h
            · rw [h] at hcl
              rw [fle_nan_left] at hcl
              exact absurd hcl (by simp)
            · exact h
          · exact hm
      · exact hm
  | succ j ih =>
      intro m b hm
      simp only [promLeftAux]
      split
      · next hcl =>
          apply ih
          split
          · rcases hx (j + 1) with h | h
            · rw [h] at hcl
              rw [fle_nan_left] at hcl
              exact absurd hcl (by simp)
            · exact h
          · exact hm
      · exact hm

theorem promRightAux_finPos (x : List FVal)
    (hx : ∀ i, x.getD i nan = nan ∨ finPos (x.getD i nan)) (hpk : FVal) :
    ∀ fuel i m b, finPos m → finPos (promRightAux x hpk fuel i m b).1 := by
  intro fuel
  induction fuel with
  | zero => intro i m b hm; exact hm
  | succ n ih =>
      intro i m b hm
      simp only [promRightAux]
      split
      · next hcl =>
          apply ih
          split
          · rcases hx i with h | h
            · rw [h] at hcl
              rw [fle_nan_left] at hcl
              exact absurd hcl.2 (by simp)
            · exact h
          · exact hm
      · exact hm

theorem promOf_finPos (sg : List Q) (hsg : ∀ a ∈ sg, 0 < a.den) (p : ℕ)
    (hp : p < sg.length) : finPos (promOf (sg.map fin) p) := by
  have hx := mapfin_getD_cases sg hsg
  have hpk : finPos ((sg.map fin).getD p nan) := by
    rcases hx p with h | h
    · exfalso
      have h2 : p < (sg.map fin).length := by simpa using hp
      rw [List.getD_eq_getElem _ _ h2, List.getElem_map] at h
      exact FVal.noConfusion h
    · exact h
  unfold promOf promBases
  apply finPos_fsub hpk
  apply finPos_fmax
  · exact promLeftAux_finPos (sg.map fin) hx _ p _ p hpk
  · exact promRightAux_finPos (sg.map fin) hx _ _ _ _ _ hpk

theorem fsum_map_fin (as : List Q) : fsum (as.map fin) = fin (qsum as) := by
  induction as with
  | nil => rfl
  | cons a as ih =>
      show fadd (fin a) (fsum (as.map fin)) = fin (qadd a (qsum as))
      rw [ih]
      rfl

theorem fmean_map_fin (as : List Q) (hne : as ≠ []) :
    fmean (as.map fin) = fin (qdiv (qsum as) (qi as.length)) := by
  have h0 : ¬((qi (as.length : ℤ)).num = 0) := by
    simp [qi]
    exact fun h => hne h
  unfold fmean
  rw [fsum_map_fin, List.length_map]
  show fdiv (fin (qsum as)) (fin (qi as.length)) = fin (qdiv (qsum as) (qi as.length))
  simp only [fdiv]
  rw [if_neg h0]

theorem zipWith_fsub_map_fin (as : List Q) :
    ∀ bs : List Q, List.zipWith fsub (as.map fin) (bs.map fin)
      = (List.zipWith qsub as bs).map fin := by
  induction as with
  | nil => intro bs; simp
  | cons a as ih =>
      intro bs
      cases bs with
      | nil => simp
      | cons b bs =>
          show fsub (fin a) (fin b) :: List.zipWith fsub (as.map fin) (bs.map fin)
            = fin (qsub a b) :: (List.zipWith qsub as bs).map fin
          rw [ih bs]
          rfl

theorem zipWith_qsub_pos (as : List Q) :
    ∀ bs : List Q, (∀ a ∈ as, 0 < a.den) → (∀ b ∈ bs, 0 < b.den) →
    ∀ x ∈ List.zipWith qsub as bs, 0 < x.den := by
  induction as with
  | nil => intro bs _ _ x hx; simp at hx
  | cons a as ih =>
      intro bs ha hb x hx
      cases bs with
      | nil => simp at hx
      | cons b bs =>
          rcases List.mem_cons.mp hx with h | h
          · subst h
            exact qsub_pos (ha a (List.mem_cons_self a as)) (hb b (List.mem_cons_self b bs))
          · exact ih bs (fun y hy => ha y (List.mem_cons_of_mem a hy))
              (fun y hy => hb y (List.mem_cons_of_mem b hy)) x h

theorem toRat_qsum_zip_sub (as : List Q) :
    ∀ bs : List Q, (∀ a ∈ as, 0 < a.den) → (∀ b ∈ bs, 0 < b.den) → as.length = bs.length →
    (qsum (List.zipWith qsub as bs)).toRat = (qsum as).toRat - (qsum bs).toRat := by
  induction as with
  | nil =>
      intro bs _ _ hlen
      have : bs = [] := List.length_eq_zero.mp hlen.symm
      subst this
      simp [qsum, toRat_qi]
  | cons a as ih =>
      intro bs ha hb hlen
      cases bs with
      | nil => simp at hlen
      | cons b bs =>
          have ha1 : 0 < a.den := ha a (List.mem_cons_self a as)
          have hb1 : 0 < b.den := hb b (List.mem_cons_self b bs)
          have ha2 : ∀ y ∈ as, 0 < y.den := fun y hy => ha y (List.mem_cons_of_mem a hy)
          have hb2 : ∀ y ∈ bs, 0 < y.den := fun y hy => hb y (List.mem_cons_of_mem b hy)
          have hlen2 : as.length = bs.length := by simpa using hlen
          show (qadd (qsub a b) (qsum (List.zipWith qsub as bs))).toRat = _
          rw [toRat_qadd (qsub_pos ha1 hb1)
            (qsum_pos _ (zipWith_qsub_pos as bs ha2 hb2))]
          rw [toRat_qsub ha1 hb1, ih bs ha2 hb2 hlen2]
          show _ = (qadd a (qsum as)).toRat - (qadd b (qsum bs)).toRat
          rw [toRat_qadd ha1 (qsum_pos as ha2), toRat_qadd hb1 (qsum_pos bs hb2)]
          ring

/-- Linearity of the mean: the difference of the two averages equals the
average of the per-entry differences (the identity that makes the stored
`mean_amp = mean_max - mean_min` equal to the across-peak average of the
per-peak amplitudes). -/
theorem fmean_sub_sameVal (as bs : List Q) (ha : ∀ a ∈ as, 0 < a.den)
    (hb : ∀ b ∈ bs, 0 < b.den) (hlen : as.length = bs.length) (hne : as ≠ []) :
    FVal.sameVal (fsub (fmean (as.map fin)) (fmean (bs.map fin)))
      (fmean (List.zipWith fsub (as.map fin) (bs.map fin))) := by
  have hbne : bs ≠ [] := by
    intro h
    subst h
    exact hne (List.length_eq_zero.mp (by simpa using hlen))
  have hzlen : (List.zipWith qsub as bs).length = as.length := by
    rw [List.length_zipWith, hlen, min_self, ← hlen]
  have hzne : List.zipWith qsub as bs ≠ [] := by
    intro h
    apply hne
    apply List.length_eq_zero.mp
    rw [← hzlen, h]
    rfl
  rw [fmean_map_fin as hne, fmean_map_fin bs hbne, zipWith_fsub_map_fin as bs,
    fmean_map_fin _ hzne, hzlen, hlen]
  show (qsub (qdiv (qsum as) (qi bs.length)) (qdiv (qsum bs) (qi bs.length))).toRat
    = (qdiv (qsum (List.zipWith qsub as bs)) (qi bs.length)).toRat
  have hnum : ((bs.length : ℤ)) ≠ 0 := by
    have : bs.length ≠ 0 := fun h => hbne (List.length_eq_zero.mp h)
    exact_mod_cast this
  have hdenpos : 0 < (qi (as.length : ℤ)).den := qi_pos _
  have hqa := qsum_pos as ha
  have hqb := qsum_pos bs hb
  rw [toRat_qsub (qdiv_pos hqa (by simpa [qi] using hnum)) (qdiv_pos hqb (by simpa [qi] using hnum))]
  rw [toRat_qdiv, toRat_qdiv, toRat_qdiv]
  rw [toRat_qsum_zip_sub as bs ha hb hlen]
  rw [div_sub_div_same]

theorem sumPow_pos (k : ℕ) : ∀ (ys : List Q) (i0 : ℕ), (∀ a ∈ ys, 0 < a.den) →
    0 < (sumPow k ys i0).den := by
  intro ys
  induction ys with
  | nil => intro i0 _; simp [sumPow, qi]
  | cons y ys ih =>
      intro i0 h
      exact qadd_pos (qmul_pos (qi_pos _) (h y (List.mem_cons_self y ys)))
        (ih (i0 + 1) (fun a ha => h a (List.mem_cons_of_mem y ha)))

theorem savgolDet_num : savgolDet.num ≠ 0 := by decide

theorem fitQuad11_pos (ys : List Q) (t : Q) (hys : ∀ a ∈ ys, 0 < a.den) (ht : 0 < t.den) :
    0 < (fitQuad11 ys t).den := by
  have h0 : 0 < (sumP0 ys).den := qsum_pos ys hys
  have h1 : 0 < (sumPow 1 ys 0).den := sumPow_pos 1 ys 0 hys
  have h2 : 0 < (sumPow 2 ys 0).den := sumPow_pos 2 ys 0 hys
  unfold fitQuad11
  apply qadd_pos
  apply qadd_pos
  · exact qdiv_pos (qadd_pos (qsub_pos (qmul_pos h0 (qsub_pos (qmul_pos (qi_pos _) (qi_pos _))
      (qmul_pos (qi_pos _) (qi_pos _)))) (qmul_pos (qi_pos _) (qsub_pos (qmul_pos h1 (qi_pos _))
      (qmul_pos h2 (qi_pos _))))) (qmul_pos (qi_pos _) (qsub_pos (qmul_pos h1 (qi_pos _))
      (qmul_pos h2 (qi_pos _))))) savgolDet_num
  · exact qmul_pos (qdiv_pos (qadd_pos (qsub_pos (qmul_pos (qi_pos _) (qsub_pos
      (qmul_pos h1 (qi_pos _)) (qmul_pos h2 (qi_pos _)))) (qmul_pos h0 (qsub_pos
      (qmul_pos (qi_pos _) (qi_pos _)) (qmul_pos (qi_pos _) (qi_pos _)))))
      (qmul_pos (qi_pos _) (qsub_pos (qmul_pos (qi_pos _) h2) (qmul_pos (qi_pos _) h1))))
      savgolDet_num) ht
  · exact qmul_pos (qdiv_pos (qadd_pos (qsub_pos (qmul_pos (qi_pos _) (qsub_pos
      (qmul_pos (qi_pos _) h2) (qmul_pos (qi_pos _) h1))) (qmul_pos (qi_pos _) (qsub_pos
      (qmul_pos (qi_pos _) h2) (qmul_pos (qi_pos _) h1)))) (qmul_pos h0 (qsub_pos
      (qmul_pos (qi_pos _) (qi_pos _)) (qmul_pos (qi_pos _) (qi_pos _))))) savgolDet_num)
      (qmul_pos ht ht)

theorem savEntry_pos (x : List Q) (n i : ℕ) (hx : ∀ a ∈ x, 0 < a.den) :
    0 < (savEntry x n i).den := by
  unfold savEntry
  split
  · exact fitQuad11_pos _ _ (fun a ha => hx a (List.mem_of_mem_take ha)) (qi_pos _)
  · split
    · exact fitQuad11_pos _ _ (fun a ha => hx a (List.mem_of_mem_drop ha)) (qi_pos _)
    · exact fitQuad11_pos _ _
        (fun a ha => hx a (List.mem_of_mem_drop (List.mem_of_mem_take ha))) (qi_pos _)

theorem savgolFrom_pos (x : List Q) (n : ℕ) (hx : ∀ a ∈ x, 0 < a.den) :
    ∀ fuel i, ∀ a ∈ savgolFrom x n fuel i, 0 < a.den := by
  intro fuel
  induction fuel with
  | zero => intro i a ha; simp [savgolFrom] at ha
  | succ m ih =>
      intro i a ha
      rcases List.mem_cons.mp ha with h | h
      · subst h
        exact savEntry_pos x n i hx
      · exact ih (i + 1) a h

theorem savgol11_pos (x : List Q) (hx : ∀ a ∈ x, 0 < a.den) :
    ∀ a ∈ savgol11 x, 0 < a.den :=
  savgolFrom_pos x x.length hx x.length 0

theorem getD_map_fin_lt (sg : List Q) (p : ℕ) (h : p < sg.length) :
    (sg.map fin).getD p nan = fin (sg.getD p (qi 0)) := by
  have h2 : p < (sg.map fin).length := by simpa using h
  rw [List.getD_eq_getElem _ _ h2, List.getElem_map, List.getD_eq_getElem _ _ h]

theorem finPos_fin_finVal {v : FVal} (hv : finPos v) : fin (finVal v) = v := by
  rcases hv with ⟨a, rfl, _⟩
  rfl

theorem finVal_pos {v : FVal} (hv : finPos v) : 0 < (finVal v).den := by
  rcases hv with ⟨a, rfl, ha⟩
  exact ha

theorem peaksOf_lt_length (series : List Q) (p : ℕ) (hp : p ∈ peaksOf series) :
    p < (savgol11 series).length := by
  unfold peaksOf findPeaksProm at hp
  have h1 : p ∈ localMaxima (smoothedF series) := List.mem_of_mem_filter hp
  have h2 := localMaxima_lt_length _ p h1
  unfold smoothedF at h2
  simpa using h2

theorem peakMaxes_eq_map (series : List Q) :
    peakMaxes (smoothedF series) (peaksOf series)
      = ((peaksOf series).map (fun p => (savgol11 series).getD p (qi 0))).map fin := by
  unfold peakMaxes
  rw [List.map_map]
  apply List.map_congr_left
  intro p hp
  unfold smoothedF
  exact getD_map_fin_lt (savgol11 series) p (peaksOf_lt_length series p hp)

theorem peakProms_eq_map (series : List Q) (hs : ∀ a ∈ series, 0 < a.den) :
    (peaksOf series).map (fun p => promOf (smoothedF series) p)
      = ((peaksOf series).map (fun p => finVal (promOf (smoothedF series) p))).map fin := by
  rw [List.map_map]
  apply List.map_congr_left
  intro p hp
  have hfp : finPos (promOf (smoothedF series) p) := by
    unfold smoothedF
    exact promOf_finPos (savgol11 series) (savgol11_pos series hs) p
      (peaksOf_lt_length series p hp)
  exact (finPos_fin_finVal hfp).symm

theorem peakMins_eq_map (series : List Q) (hs : ∀ a ∈ series, 0 < a.den) :
    peakMins (smoothedF series) (peaksOf series)
      = (List.zipWith qsub ((peaksOf series).map (fun p => (savgol11 series).getD p (qi 0)))
          ((peaksOf series).map (fun p => finVal (promOf (smoothedF series) p)))).map fin := by
  unfold peakMins
  rw [peakMaxes_eq_map series, peakProms_eq_map series hs, zipWith_fsub_map_fin]

theorem calcPeaks_meanAmp_sameVal (series : List Q) (hs : ∀ a ∈ series, 0 < a.den)
    (hp : peaksOf series ≠ []) :
    FVal.sameVal
      (fsub (fmean (peakMaxes (smoothedF series) (peaksOf series)))
        (fmean (peakMins (smoothedF series) (peaksOf series))))
      (fmean (List.zipWith fsub (peakMaxes (smoothedF series) (peaksOf series))
        (peakMins (smoothedF series) (peaksOf series)))) := by
  have hsg := savgol11_pos series hs
  have hmaxpos : ∀ a ∈ (peaksOf series).map (fun p => (savgol11 series).getD p (qi 0)),
      0 < a.den := by
    intro a ha
    rcases List.mem_map.mp ha with ⟨p, hpmem, rfl⟩
    have hlt := peaksOf_lt_length series p hpmem
    rw [List.getD_eq_getElem _ _ hlt]
    exact hsg _ (List.getElem_mem hlt)
  have hprompos : ∀ a ∈ (peaksOf series).map (fun p => finVal (promOf (smoothedF series) p)),
      0 < a.den := by
    intro a ha
    rcases List.mem_map.mp ha with ⟨p, hpmem, rfl⟩
    apply finVal_pos
    unfold smoothedF
    exact promOf_finPos (savgol11 series) hsg p (peaksOf_lt_length series p hpmem)
  have hminpos := zipWith_qsub_pos _ _ hmaxpos hprompos
  have hlen : ((peaksOf series).map (fun p => (savgol11 series).getD p (qi 0))).length
      = (List.zipWith qsub ((peaksOf series).map (fun p => (savgol11 series).getD p (qi 0)))
          ((peaksOf series).map (fun p => finVal (promOf (smoothedF series) p)))).length := by
    rw [List.length_zipWith]
    simp
  have hne : ((peaksOf series).map (fun p => (savgol11 series).getD p (qi 0))) ≠ [] := by
    intro h
    apply hp
    have := congrArg List.length h
    rw [List.length_map] at this
    exact List.length_eq_zero.mp this
  rw [peakMaxes_eq_map series, peakMins_eq_map series hs]
  exact fmean_sub_sameVal _ _ hmaxpos hminpos hlen hne

/- ------------------------------ claims ------------------------------ -/

/-- C1 (failing-input evaluation): in rolling mode with `num_frames = 20`,
`roll_size = 10`, `roll_by = 5`, a window whose autocorrelation yields fewer
than two peaks (the first window of a linear ramp) stores a NaN period and a
NaN curve of length `num_frames*2 - 1 = 39`, although the correlation curve
of the analysed window has length `2*roll_size - 1 = 19`: the stored all-NaN
curve does not have the length of the correlation curve. -/
theorem C1_rolling_nan_curve_length :
    acfRollBox 20 10 5 ⟨1, 10⟩ rampSeries 0 = Py.ok (nan, List.replicate 39 nan)
      ∧ (acfCurveNorm 10 ((rampSeries.drop 0).take 10)).length = 19
      ∧ (List.replicate 39 (nan : FVal)).length ≠ 2 * 10 - 1 :=
  ⟨by decide, by decide, by decide⟩

/-- C2 (failing-input evaluation): for a bin whose normalized
cross-correlation curve has zero local maxima (here: both channels constant,
so the curve is all NaN), `calc_CCF` does not report a NaN shift — the
`argmin` over the empty peak set raises a `ValueError`. -/
theorem C2_ccf_no_peaks_raises :
    (∃ c, ccCurveNorm 5 constSeries5 constSeries5 = Py.ok c ∧ localMaxima c = []
        ∧ ccfShiftOfCurve c = none)
      ∧ ccfStdBox 5 constSeries5 constSeries5 = Py.valueError :=
  ⟨⟨List.replicate 9 nan, by decide, by decide, by decide⟩, by decide⟩

/-- C3 (failing-input evaluation): on a constant (zero-variance) series the
period is NaN and all five peak-shape outputs are NaN without an exception,
but `calc_CCF` raises (models `np.argmin` of an empty array) instead of
reporting a NaN shift. -/
theorem C3_constant_series :
    acfStdBox 12 ⟨1, 10⟩ constSeries12 = Py.ok (nan, List.replicate 23 nan)
      ∧ calcPeaksBox constSeries12 = Py.ok (nan, nan, nan, nan, nan)
      ∧ ccfStdBox 12 constSeries12 constSeries12 = Py.valueError :=
  ⟨by decide, by decide, by decide⟩

/-- C4 (counterexample): for the list `[1, 2, 3, NaN]` the inserted SEM is
`nanstd / sqrt(4)` (squared: `1/6`), not the claimed `nanstd / sqrt(3)`
(squared: `2/9 ≈ 0.471²`): `add_stats` divides by the square root of the
full list length, NaN entries included. -/
theorem C4_sem_denominator_cex :
    feq (semSqOf statList) (fin ⟨1, 6⟩) = true
      ∧ feq (semSqOf statList) (fin (qdiv ⟨2, 3⟩ (qi 3))) = false
      ∧ feq (fin (⟨1, 6⟩ : Q)) (fin (qdiv ⟨2, 3⟩ (qi 3))) = false :=
  ⟨by decide, by decide, by decide⟩

/-- C4 (amended): `add_stats` prepends `[mean, median, stddev, SEM]` (the
third and fourth slots are modelled by their squares), all NaN-skipping
except the SEM denominator: for `[1, 2, 3, NaN]` the mean is 2, the median
is 2, `stddev² = 2/3` (so `stddev ≈ 0.816`), and `SEM = stddev / sqrt(4)`
(so `SEM² = 1/6`, `SEM ≈ 0.408`), the denominator being the full list
length including NaNs. -/
theorem C4_addStats_values :
    feq (nanmean statList) (fin (qi 2)) = true
      ∧ feq (nanmedian statList) (fin (qi 2)) = true
      ∧ feq (nanvarOf statList) (fin ⟨2, 3⟩) = true
      ∧ feq (semSqOf statList) (fin (qdiv ⟨2, 3⟩ (qi 4))) = true
      ∧ addStats statList
          = nanmean statList :: nanmedian statList :: nanvarOf statList
            :: semSqOf statList :: statList :=
  ⟨by decide, by decide, by decide, by decide, by decide⟩

/-- C5 (counterexample): with `num_frames = 20`, `roll_size = 10`,
`roll_by = 5`, the number of sub-windows computed at construction is not 3. -/
theorem C5_window_count_cex : numSubframes 20 10 5 ≠ 3 := by decide

/-- C5 (amended): with `num_frames = 20`, `roll_size = 10`, `roll_by = 5`,
the number of sub-windows computed at construction is exactly 2
(`(20 - 10) // 5`, with no `+ 1`). -/
theorem C5_window_count : numSubframes 20 10 5 = 2 := by decide

/-- C6 (failing-input evaluation): in rolling mode the cross-correlation
curve is divided by `num_frames * std1 * std2`, not by
`roll_size * std1 * std2`.  For two length-20 alternating series whose first
window (size 10) has both standard deviations equal to 1, the raw centre
entry is -10: the stored centre entry is `-10 / 20 = -1/2`, while the
window-size normalization of the claim would give `-10 / 10 = -1`. -/
theorem C6_rolling_ccf_normalization :
    pyShiftOf (ccfRollBox 20 10 5 altSeriesA altSeriesB 0) = some (-1)
      ∧ feq ((pyCurveOf (ccfRollBox 20 10 5 altSeriesA altSeriesB 0)).getD 9 nan)
          (fin ⟨-1, 2⟩) = true
      ∧ feq (fdivQ (corrEntry (center altWinA) (center altWinB) 9) (qmul (qi 10) (qi 1)))
          (fin (qi (-1))) = true
      ∧ feq (fin (⟨-1, 2⟩ : Q)) (fin (qi (-1))) = false :=
  ⟨by decide, by decide, by decide, by decide⟩

/-- C7 (failing-input evaluation): for a 1-frame, 1-channel image with 2
rows and 4 columns and `box_size = 2`, the constructor computes
`x_boxes = 2`, `y_boxes = 1`, but the series of box `(x = 1, y = 0)` is
`[NaN]`: the row axis is sliced with the column-derived box index `x`, so
rows `2:4` of a 2-row image form an empty footprint.  The full in-image
2-by-2 footprint the claim describes (columns 2..3) has mean 25. -/
theorem C7_nonsquare_empty_footprint :
    xBoxesOf wideImage 2 = 2 ∧ yBoxesOf wideImage 2 = 1
      ∧ boxMeanSeries wideImage 2 0 1 0 = [nan]
      ∧ feq (npMean2 [[qi 10, qi 20], [qi 30, qi 40]]) (fin (qi 25)) = true :=
  ⟨by decide, by decide, by decide, by decide⟩

/-- C8 (counterexample): for a 22-frame series with two smoothed peaks, the
stored relative amplitude is `mean_amp / mean_min = 2496/413 ≈ 6.043`, which
differs from the average over detected peaks of the per-peak ratio
`amplitude_i / min_i = 522409/85224 ≈ 6.130`. -/
theorem C8_relAmp_cex :
    feq (pyRelAmpOf (calcPeaksBox twoPeakSeries)) (fin ⟨2496, 413⟩) = true
      ∧ feq (relAmpPerPeakAvg twoPeakSeries) (fin ⟨522409, 85224⟩) = true
      ∧ feq (pyRelAmpOf (calcPeaksBox twoPeakSeries)) (relAmpPerPeakAvg twoPeakSeries) = false :=
  ⟨by decide, by decide, by decide⟩

/-- C8 (amended): whenever at least one peak is detected, `calc_peaks`
returns the mean width, the mean of the per-peak maxima, the mean of the
per-peak minima (`max_i - prominence_i`), the amplitude
`mean_max - mean_min` — which equals the average of the per-peak amplitudes
`max_i - min_i` — and the relative amplitude `mean_amp / mean_min`, the
ratio of the averaged amplitude to the averaged minimum (not the average of
the per-peak ratios). -/
theorem C8_peak_stats_amended (series : List Q) (hs : ∀ a ∈ series, 0 < a.den)
    (h11 : 11 ≤ series.length) (hp : peaksOf series ≠ []) :
    calcPeaksBox series = Py.ok
      (fmean ((peaksOf series).map (fun p => peakWidth (smoothedF series) p)),
       fmean (peakMaxes (smoothedF series) (peaksOf series)),
       fmean (peakMins (smoothedF series) (peaksOf series)),
       fsub (fmean (peakMaxes (smoothedF series) (peaksOf series)))
         (fmean (peakMins (smoothedF series) (peaksOf series))),
       fdiv (fsub (fmean (peakMaxes (smoothedF series) (peaksOf series)))
           (fmean (peakMins (smoothedF series) (peaksOf series))))
         (fmean (peakMins (smoothedF series) (peaksOf series))))
      ∧ FVal.sameVal
        (fsub (fmean (peakMaxes (smoothedF series) (peaksOf series)))
          (fmean (peakMins (smoothedF series) (peaksOf series))))
        (fmean (List.zipWith fsub (peakMaxes (smoothedF series) (peaksOf series))
          (peakMins (smoothedF series) (peaksOf series)))) := by
  constructor
  · simp only [calcPeaksBox, if_neg (not_lt.mpr h11), if_neg hp]
  · exact calcPeaks_meanAmp_sameVal series hs hp

theorem C8_peak_stats_amended_witness :
    (∀ a ∈ twoPeakSeries, 0 < a.den) ∧ 11 ≤ twoPeakSeries.length
      ∧ peaksOf twoPeakSeries ≠ []
      ∧ (calcPeaksBox twoPeakSeries = Py.ok
          (fmean ((peaksOf twoPeakSeries).map (fun p => peakWidth (smoothedF twoPeakSeries) p)),
           fmean (peakMaxes (smoothedF twoPeakSeries) (peaksOf twoPeakSeries)),
           fmean (peakMins (smoothedF twoPeakSeries) (peaksOf twoPeakSeries)),
           fsub (fmean (peakMaxes (smoothedF twoPeakSeries) (peaksOf twoPeakSeries)))
             (fmean (peakMins (smoothedF twoPeakSeries) (peaksOf twoPeakSeries))),
           fdiv (fsub (fmean (peakMaxes (smoothedF twoPeakSeries) (peaksOf twoPeakSeries)))
               (fmean (peakMins (smoothedF twoPeakSeries) (peaksOf twoPeakSeries))))
             (fmean (peakMins (smoothedF twoPeakSeries) (peaksOf twoPeakSeries))))
        ∧ FVal.sameVal
          (fsub (fmean (peakMaxes (smoothedF twoPeakSeries) (peaksOf twoPeakSeries)))
            (fmean (peakMins (smoothedF twoPeakSeries) (peaksOf twoPeakSeries))))
          (fmean (List.zipWith fsub (peakMaxes (smoothedF twoPeakSeries) (peaksOf twoPeakSeries))
            (peakMins (smoothedF twoPeakSeries) (peaksOf twoPeakSeries))))) :=
  ⟨by decide, by decide, by decide,
    C8_peak_stats_amended twoPeakSeries (by decide) (by decide) (by decide)⟩

/-- C9: the normalized autocorrelation curve of a series of length `N` is
symmetric about its centre: the entry at index `i` and the entry at index
`2N - 2 - i` denote the same value, for every valid `i`. -/
theorem C9_acf_symmetric (s : List Q) (hs : ∀ a ∈ s, 0 < a.den) (i : ℕ)
    (hi : i < 2 * s.length - 1) :
    FVal.sameVal ((acfCurveNorm s.length s).getD i nan)
      ((acfCurveNorm s.length s).getD (2 * s.length - 2 - i) nan) :=
  acfCurve_symm_core s.length s hs i hi

theorem C9_acf_symmetric_witness :
    (∀ a ∈ acfWitSeries, 0 < a.den) ∧ 0 < 2 * acfWitSeries.length - 1
      ∧ FVal.sameVal ((acfCurveNorm acfWitSeries.length acfWitSeries).getD 0 nan)
        ((acfCurveNorm acfWitSeries.length acfWitSeries).getD
          (2 * acfWitSeries.length - 2 - 0) nan) :=
  ⟨by decide, by decide, C9_acf_symmetric acfWitSeries (by decide) 0 (by decide)⟩

theorem C10_ccf_tie_leftmost_witness :
    1 ∈ localMaxima tieCurve ∧ 1 < 3
      ∧ ((1 : ℤ) - ((tieCurve.length / 2 : ℕ) : ℤ)).natAbs
        = ((3 : ℤ) - ((tieCurve.length / 2 : ℕ) : ℤ)).natAbs
      ∧ (∀ p ∈ localMaxima tieCurve,
          ((1 : ℤ) - ((tieCurve.length / 2 : ℕ) : ℤ)).natAbs
            ≤ ((p : ℤ) - ((tieCurve.length / 2 : ℕ) : ℤ)).natAbs)
      ∧ 3 ∈ localMaxima tieCurve
      ∧ (ccfShiftOfCurve tieCurve = some ((1 : ℤ) - ((tieCurve.length / 2 : ℕ) : ℤ))
          ∧ (1 : ℤ) - ((tieCurve.length / 2 : ℕ) : ℤ) < 0) :=
  ⟨by decide, by decide, by decide, by decide, by decide,
    C10_ccf_tie_leftmost tieCurve 1 3 (by decide) (by decide) (by decide) (by decide) (by decide)⟩
